import Mathlib

/-
Verification of the natural-language specification of the selfadjoint
eigensolver in src/Eigen/src/Eigenvalues/SelfAdjointEigenSolver.h.

Shallow embedding conventions:
* The scalar type is a generic linearly ordered field `R` (the C++ code is a
  template over a real scalar type `RealScalar`); theorems that need a genuine
  square root are stated at `R = ℝ` with `Real.sqrt`.
* Dense vectors and matrices are total functions `ℕ → R` and `ℕ → ℕ → R`
  together with explicit extents; entries at indices at or beyond the extent
  are phantom cells that the algorithms never read.
* External collaborators that are only declared, not defined, in the sources
  (the tridiagonalization, `ei_sqrt`, `PlanarRotation::makeGivens`, the
  machine epsilon used by `ei_isMuchSmallerThan`) are oracle parameters
  collected in `EigenCtx`; the Cholesky factorization `LLT` and the triangular
  solves are modelled from the spec (see the doc comments below).
* C++ `assert` / `ei_assert` contract violations are modelled by `Except`.
* The deflation `while` loop of `compute` has no iteration cap in the code;
  it is embedded with an explicit fuel parameter (`EigenCtx.fuel`); none of
  the verified properties depend on the loop having converged.
-/

set_option maxRecDepth 10000

variable {R : Type} [LinearOrderedField R]

/-- Error kinds: `contractViolation` models a failed `assert`/`ei_assert`;
`notPositiveDefinite` models the failure signal of the Cholesky factorization
collaborator in the generalized path. -/
inductive EigenError where
  | contractViolation
  | notPositiveDefinite
  deriving DecidableEq

/-- A dense matrix with explicit extents (the `MatrixType` template argument):
`rows`/`cols` extents and an entry function. -/
structure MatrixType (R : Type) where
  rows : ℕ
  cols : ℕ
  entry : ℕ → ℕ → R

/-- The solver object's state: `m_eivalues` (the eigenvalue vector, which
aliases the tridiagonal diagonal during iteration), `m_eivec` (the eigenvector
accumulator storage) and the `m_eigenvectorsOk` debug flag. -/
structure SelfAdjointEigenSolver (R : Type) where
  m_eivalues : ℕ → R
  m_eivec : ℕ → ℕ → R
  m_eigenvectorsOk : Bool

/-- Oracle bundle for the external collaborators of the solver:
`sqrt` models `ei_sqrt`; `givens x z` models `PlanarRotation::makeGivens(x,z)`
returning `(c, s)`; `eps` models the scaled machine epsilon used by
`ei_isMuchSmallerThan`; `fuel` bounds the (uncapped) deflation loop;
`tridDiag`, `tridSub`, `tridQ` model `Tridiagonalization`'s `diagonal()`,
`subDiagonal()` and `matrixQ()`. -/
structure EigenCtx (R : Type) where
  sqrt : R → R
  givens : R → R → R × R
  eps : R
  fuel : ℕ
  tridDiag : MatrixType R → ℕ → R
  tridSub : MatrixType R → ℕ → R
  tridQ : MatrixType R → ℕ → ℕ → R

/-- The function `ei_abs2` for a real scalar: the square. -/
def ei_abs2 (x : R) : R := x * x

/-- State threaded through one implicit QR sweep: the two tridiagonal arrays,
the eigenvector accumulator and the bulge-chasing scalars `x`, `z`. -/
structure QRData (R : Type) where
  diag : ℕ → R
  sub : ℕ → R
  q : ℕ → ℕ → R
  x : R
  z : R

/-- The numeric components of a `QRData` (everything except the accumulator). -/
def QRData.nums (st : QRData R) : (ℕ → R) × (ℕ → R) × R × R :=
  (st.diag, st.sub, st.x, st.z)

/-- The call `q.applyOnTheRight(k, k+1, rot)`: right-multiplication of the accumulator
by the Givens rotation acting on columns `k` and `k+1`. -/
def applyGivensRight (q : ℕ → ℕ → R) (k : ℕ) (c s : R) : ℕ → ℕ → R :=
  fun i j =>
    if j = k then c * q i k - s * q i (k+1)
    else if j = k + 1 then s * q i k + c * q i (k+1)
    else q i j

/-- One iteration (loop index `k`) of the `for` loop of
`ei_tridiagonal_qr_step` (source lines 495-524): build the Givens rotation
from `(x, z)`, apply the similarity transform to `diag[k]`, `diag[k+1]`,
`subdiag[k]`, update `subdiag[k-1]` when `k > start` (bulge chasing), advance
`x`, pre-rotate `subdiag[k+1]` when `k < end-1`, and accumulate the rotation
into the eigenvector matrix when it is present (`hasQ`). -/
def qrIter (givens : R → R → R × R) (hasQ : Bool) (start e k : ℕ)
    (st : QRData R) : QRData R :=
  let c := (givens st.x st.z).1
  let s := (givens st.x st.z).2
  let sdk := s * st.diag k + c * st.sub k
  let dkp1 := s * st.sub k + c * st.diag (k+1)
  let diag1 := Function.update st.diag k
    (c * (c * st.diag k - s * st.sub k) - s * (c * st.sub k - s * st.diag (k+1)))
  let diag2 := Function.update diag1 (k+1) (s * sdk + c * dkp1)
  let sub1 := Function.update st.sub k (c * sdk - s * dkp1)
  let sub2 := if start < k then Function.update sub1 (k-1) (c * sub1 (k-1) - s * st.z) else sub1
  let x1 := sub2 k
  let z1 := if k < e - 1 then -s * sub2 (k+1) else st.z
  let sub3 := if k < e - 1 then Function.update sub2 (k+1) (c * sub2 (k+1)) else sub2
  let q1 := if hasQ then applyGivensRight st.q k c s else st.q
  ⟨diag2, sub3, q1, x1, z1⟩

/-- The `for (k = start; k < end; ++k)` loop of `ei_tridiagonal_qr_step`,
by structural recursion on the remaining iteration count. -/
def qrLoop (givens : R → R → R × R) (hasQ : Bool) (start e : ℕ) :
    ℕ → ℕ → QRData R → QRData R
  | 0, _, st => st
  | fuel+1, k, st => qrLoop givens hasQ start e fuel (k+1) (qrIter givens hasQ start e k st)

/-- The Wilkinson shift exactly as computed at source lines 489-491:
`td = (diag[end-1] - diag[end]) * 0.5`, `e2 = ei_abs2(subdiag[end-1])`,
`mu = diag[end] - e2 / (td + (td>0 ? 1 : -1) * sqrt(td*td + e2))`. -/
def tridiagonalQRShift (sqrt : R → R) (dPrev dEnd sd : R) : R :=
  let td := (dPrev - dEnd) * (1/2)
  let e2 := ei_abs2 sd
  dEnd - e2 / (td + (if 0 < td then 1 else -1) * sqrt (td * td + e2))

/-- The procedure `ei_tridiagonal_qr_step(diag, subdiag, start, end, matrixQ, n)`
(source lines 486-526). The null-pointer test `matrixQ != 0` is modelled by
the `hasQ` flag. -/
def ei_tridiagonal_qr_step (sqrt : R → R) (givens : R → R → R × R) (hasQ : Bool)
    (diag subdiag : ℕ → R) (matrixQ : ℕ → ℕ → R) (start e n : ℕ) : QRData R :=
  let mu := tridiagonalQRShift sqrt (diag (e-1)) (diag e) (subdiag (e-1))
  let x := diag start - mu
  let z := subdiag start
  qrLoop givens hasQ start e (e - start) start ⟨diag, subdiag, matrixQ, x, z⟩

/-- One pass of the deflation test (source lines 415-417): for each `i` in
`[start, end)`, zero `subdiag[i]` when
`ei_isMuchSmallerThan(ei_abs(subdiag[i]), ei_abs(diag[i]) + ei_abs(diag[i+1]))`
holds. Modelled from the spec: `ei_isMuchSmallerThan(x, y)` is not defined in
the sources (only declared through `MatrixBase::isMuchSmallerThan`); the spec
gives its semantics as the threshold test `|x| ≤ ε·|y|` with `ε` the scaled
machine epsilon (`EigenCtx.eps`). -/
def deflatePass (eps : R) (diag sub : ℕ → R) (start e : ℕ) : ℕ → R :=
  fun i =>
    if start ≤ i ∧ i < e ∧ |(|sub i|)| ≤ eps * |(|diag i| + |diag (i+1)|)| then 0
    else sub i

/-- The `while (end>0 && m_subdiag[end-1]==0) end--;` shrink (source line 420). -/
def shrinkEnd (sub : ℕ → R) : ℕ → ℕ
  | 0 => 0
  | e+1 => if sub e = 0 then shrinkEnd sub e else e+1

/-- The `start = end - 1; while (start>0 && m_subdiag[start-1]!=0) start--;`
search for the head of the unreduced block (source lines 424-426); the
argument is `end - 1`. -/
def findStart (sub : ℕ → R) : ℕ → ℕ
  | 0 => 0
  | s+1 => if sub s = 0 then s+1 else findStart sub s

/-- The working state of the deflation loop: the aliased diagonal, the
sub-diagonal scratch and the eigenvector accumulator. -/
structure TriState (R : Type) where
  diag : ℕ → R
  sub : ℕ → R
  q : ℕ → ℕ → R

/-- The deflation `while (end>0)` loop of `compute` (source lines 413-429),
with fuel. Each round: deflation pass over `[start, end)`, shrink `end` past
trailing zero sub-diagonal entries, stop if everything is diagonalized,
locate the unreduced block `[start, end]`, and run one QR sweep over it
(passing the accumulator only when eigenvectors are computed). -/
def computeLoop (ctx : EigenCtx R) (cev : Bool) (n : ℕ) :
    ℕ → ℕ → ℕ → TriState R → TriState R
  | 0, _, _, t => t
  | fuel+1, start, e, t =>
    if e = 0 then t
    else
      let sub1 := deflatePass ctx.eps t.diag t.sub start e
      let e1 := shrinkEnd sub1 e
      if e1 = 0 then ⟨t.diag, sub1, t.q⟩
      else
        let start1 := findStart sub1 (e1 - 1)
        let r := ei_tridiagonal_qr_step ctx.sqrt ctx.givens cev t.diag sub1 t.q start1 e1 n
        computeLoop ctx cev n fuel start1 e1 ⟨r.diag, r.sub, r.q⟩

/-- Index (into `v`) of the first minimum of `v` over the window
`[i, i+m]`; models `segment(i, n-i).minCoeff(&k)` (source line 437), which
scans forward and keeps the first strict minimum. Modelled from the spec:
`minCoeff` is an external collaborator, specified as finding "the index k≥i
of the minimum value in eigenvalues[i..n)". -/
def minIndexFrom (v : ℕ → R) (i : ℕ) : ℕ → ℕ
  | 0 => i
  | m+1 => if v (i+m+1) < v (minIndexFrom v i m) then i+m+1 else minIndexFrom v i m

/-- The selection-sort loop of `compute` (source lines 434-443), acting on the
eigenvalue vector and recording the accumulated column permutation. At step
`i` the minimum of the suffix `[i, n)` is located; when its index differs
from `i` the two values are transposed, and the same transposition is
accumulated for the eigenvector columns (the code swaps `m_eivec` columns
unconditionally, without consulting `computeEigenvectors`). -/
def selSortGo (n : ℕ) : ℕ → ℕ → (ℕ → R) → Equiv.Perm ℕ → (ℕ → R) × Equiv.Perm ℕ
  | _, 0, v, p => (v, p)
  | i, fuel+1, v, p =>
    if minIndexFrom v i (n - 1 - i) = i then selSortGo n (i+1) fuel v p
    else
      selSortGo n (i+1) fuel
        (fun j => v (Equiv.swap i (minIndexFrom v i (n - 1 - i)) j))
        (p * Equiv.swap i (minIndexFrom v i (n - 1 - i)))

/-- The full selection sort over suffixes: `n - 1` steps starting at `i = 0`;
returns the sorted vector together with the permutation applied (so that the
result is the input composed with the permutation). -/
def selSort (v : ℕ → R) (n : ℕ) : (ℕ → R) × Equiv.Perm ℕ :=
  selSortGo n 0 (n - 1) v 1

/-- The driver state (diagonal and accumulator) just before the final sort of
`compute`: for `n = 1` the early-return values (sole entry written into slot 0
of the reused eigenvalue storage, all-ones accumulator), otherwise the output
of the deflation loop seeded from the tridiagonalization. -/
def preSortState (ctx : EigenCtx R) (s : SelfAdjointEigenSolver R)
    (matrix : MatrixType R) (cev : Bool) : (ℕ → R) × (ℕ → ℕ → R) :=
  if matrix.cols = 1 then
    (Function.update s.m_eivalues 0 (matrix.entry 0 0), fun _ _ => 1)
  else
    let t := computeLoop ctx cev matrix.cols ctx.fuel 0 (matrix.cols - 1)
      ⟨fun i => ctx.tridDiag matrix i, fun i => ctx.tridSub matrix i,
       if cev then ctx.tridQ matrix else s.m_eivec⟩
    (t.diag, t.q)

/-- The method `SelfAdjointEigenSolver::compute(matrix, computeEigenvectors)` (source
lines 386-445). The `assert(matrix.cols() == matrix.rows())` is modelled as a
contract-violation error. For `n = 1` the sole entry becomes the eigenvalue
(`ei_real` is the identity on a real scalar) and `m_eivec.setOnes()` is
modelled by the all-ones matrix. Otherwise the matrix is tridiagonalized
(oracle), the deflation loop runs, and eigenvalues are sorted ascending with
the eigenvector columns permuted by the same permutation - unconditionally,
whether or not eigenvectors were computed. The solver state is threaded
because the storage is reused across calls (`m_eivec` keeps its previous
contents when eigenvectors are not computed). -/
def SelfAdjointEigenSolver.compute (ctx : EigenCtx R) (s : SelfAdjointEigenSolver R)
    (matrix : MatrixType R) (computeEigenvectors : Bool) :
    Except EigenError (SelfAdjointEigenSolver R) :=
  if matrix.cols = matrix.rows then
    if matrix.cols = 1 then
      .ok ⟨Function.update s.m_eivalues 0 (matrix.entry 0 0), fun _ _ => 1,
           computeEigenvectors⟩
    else
      let t := computeLoop ctx computeEigenvectors matrix.cols ctx.fuel 0 (matrix.cols - 1)
        ⟨fun i => ctx.tridDiag matrix i, fun i => ctx.tridSub matrix i,
         if computeEigenvectors then ctx.tridQ matrix else s.m_eivec⟩
      let p := selSort t.diag matrix.cols
      .ok ⟨p.1, fun r c => t.q r (p.2 c), computeEigenvectors⟩
  else .error .contractViolation

/-- The accessor `SelfAdjointEigenSolver::eigenvectors()` (source lines 284-290):
`ei_assert(m_eigenvectorsOk)` then return `m_eivec`. The assert is modelled
as a contract-violation error when the flag is false. -/
def SelfAdjointEigenSolver.eigenvectors (s : SelfAdjointEigenSolver R) :
    Except EigenError (ℕ → ℕ → R) :=
  if s.m_eigenvectorsOk then .ok s.m_eivec else .error .contractViolation

/-- Cholesky column data, fuel-indexed so that it is structurally recursive:
`cholAux sqrt B (m+1) i j` is the `L` entry at `(i, j)` provided `j ≤ m`.
Column `m` is computed from the previous columns: zero above the diagonal,
`sqrt(pivot)` on it, and `(B i m - Σ_{k<m} L i k · L m k) / L m m` below it.
Modelled from the spec: the `LLT` factorization collaborator is not part of
the sources; the spec specifies it as the lower-triangular Cholesky
factorization `B = L·Lᵗ`. -/
def cholAux (sqrt : R → R) (B : ℕ → ℕ → R) : ℕ → ℕ → ℕ → R
  | 0, _, _ => 0
  | m+1, i, j =>
    if j < m then cholAux sqrt B m i j
    else if i < j then 0
    else
      if i = m then sqrt (B m m - ∑ k : Fin m, (cholAux sqrt B m m k) ^ 2)
      else (B i m - ∑ k : Fin m, cholAux sqrt B m i k * cholAux sqrt B m m k) /
        sqrt (B m m - ∑ k : Fin m, (cholAux sqrt B m m k) ^ 2)

/-- The Cholesky factor `L` of `B` (modelled from the spec, see `cholAux`). -/
def cholL (sqrt : R → R) (B : ℕ → ℕ → R) (i j : ℕ) : R :=
  cholAux sqrt B (j+1) i j

/-- The `j`-th Cholesky pivot `B j j - Σ_{k<j} (L j k)²`; the factorization
succeeds exactly when every pivot within the extent is positive. -/
def cholPivot (sqrt : R → R) (B : ℕ → ℕ → R) (j : ℕ) : R :=
  B j j - ∑ k : Fin j, (cholL sqrt B j k) ^ 2

/-- The factorization `LLT<MatrixType> cholB(matB)` - modelled from the spec: "factor B = L·Lᵗ
(fails/signals if B is not positive definite - the factorization step itself
detects this)". The failure is detected by a nonpositive pivot and surfaced
as `notPositiveDefinite`. -/
def lltCompute (sqrt : R → R) (B : MatrixType R) : Except EigenError (ℕ → ℕ → R) :=
  if ∀ j, j < B.rows → 0 < cholPivot sqrt B.entry j then .ok (cholL sqrt B.entry)
  else .error .notPositiveDefinite

/-- Forward substitution, fuel-indexed for structural recursion:
`fsAux L B (i+1) i j` solves row `i` of `L · X = B` using the rows above it.
Modelled from the spec: `matrixL().solveInPlace` is an external triangular
solve collaborator. -/
def fsAux (L B : ℕ → ℕ → R) : ℕ → ℕ → ℕ → R
  | 0, i, j => B i j
  | m+1, i, j =>
    if i < m then fsAux L B m i j
    else (B i j - ∑ k : Fin i, L i k * fsAux L B m k j) / L i i

/-- Entry `(i, j)` of the solution of the lower-triangular system `L·X = B`
(forward substitution). -/
def forwardSolve (L B : ℕ → ℕ → R) (i j : ℕ) : R := fsAux L B (i+1) i j

/-- Backward substitution for the upper-triangular system `U·X = B` on the
first `n` rows, fuel-indexed for structural recursion; rows at index `≥ n`
are left untouched (the in-place solve only writes the existing rows).
Modelled from the spec: `matrixU().solveInPlace` is an external triangular
solve collaborator. -/
def bsAux (U B : ℕ → ℕ → R) (n : ℕ) : ℕ → ℕ → ℕ → R
  | 0, i, j => B i j
  | m+1, i, j =>
    if n ≤ i then B i j
    else (B i j - ∑ k : Fin (n - (i+1)), U i (i+1+k) * bsAux U B n m (i+1+k) j) / U i i

/-- Entry `(i, j)` of the solution of `U·X = B` (backward substitution over
the first `n` rows). -/
def backSolve (U B : ℕ → ℕ → R) (n : ℕ) (i j : ℕ) : R := bsAux U B n n i j

/-- Normalize every column of `M` (first `n` rows) to unit Euclidean norm:
models the loop `m_eivec.col(i) = m_eivec.col(i).normalized()` (source lines
477-478), with the Euclidean norm `sqrt(Σ squares)`. -/
def normalizeCols (sqrt : R → R) (n : ℕ) (M : ℕ → ℕ → R) : ℕ → ℕ → R :=
  fun i j => M i j / sqrt (∑ k : Fin n, (M k j) ^ 2)

/-- The congruence-transformed matrix `C = L⁻¹ · A · L⁻ᵗ` formed at source
lines 457-462 by two in-place forward solves with an adjoint
(= transpose, real scalars) taken in between and after. -/
def matCOf (L : ℕ → ℕ → R) (A : MatrixType R) : MatrixType R :=
  ⟨A.rows, A.cols,
   fun i j => forwardSolve L (fun a b => forwardSolve L A.entry b a) j i⟩

/-- The method `SelfAdjointEigenSolver::compute(matA, matB, computeEigenvectors)`
(source lines 447-481): check the dimension contract, factor `B = L·Lᵗ`
(propagating the factorization's failure), form `C = L⁻¹·A·L⁻ᵗ`, run the
standard `compute` on `C`, and - when eigenvectors were requested -
back-transform them by solving `Lᵗ·V = V_C` and renormalizing each column. -/
def SelfAdjointEigenSolver.computeGeneralized (ctx : EigenCtx R)
    (s : SelfAdjointEigenSolver R) (matA matB : MatrixType R)
    (computeEigenvectors : Bool) : Except EigenError (SelfAdjointEigenSolver R) :=
  if matA.cols = matA.rows ∧ matB.rows = matA.rows ∧ matB.cols = matB.rows then
    match lltCompute ctx.sqrt matB with
    | .error err => .error err
    | .ok L =>
      match SelfAdjointEigenSolver.compute ctx s (matCOf L matA) computeEigenvectors with
      | .error err => .error err
      | .ok s1 =>
        if computeEigenvectors then
          .ok ⟨s1.m_eivalues,
               normalizeCols ctx.sqrt matA.rows
                 (backSolve (fun i j => L j i) s1.m_eivec matA.rows),
               s1.m_eigenvectorsOk⟩
        else .ok s1
  else .error .contractViolation

/-- The eigenvalue entry at index `i` of a `compute` result, when it
succeeded. -/
def evalAt (r : Except EigenError (SelfAdjointEigenSolver R)) (i : ℕ) : Option R :=
  match r with
  | .ok t => some (t.m_eivalues i)
  | .error _ => none

/-- The eigenvector-storage entry at `(i, j)` of a `compute` result, when it
succeeded. -/
def evecAt (r : Except EigenError (SelfAdjointEigenSolver R)) (i j : ℕ) : Option R :=
  match r with
  | .ok t => some (t.m_eivec i j)
  | .error _ => none

/-- A concrete rational oracle bundle: trivial sqrt and rotation oracles, a
zero epsilon, fuel 2, and the honest tridiagonalization of an
already-diagonal matrix (diagonal read off, zero sub-diagonal, identity Q). -/
def ctxQ : EigenCtx ℚ :=
  ⟨fun _ => 0, fun _ _ => (1, 0), 0, 2,
   fun M i => M.entry i i, fun _ _ => 0,
   fun _ i j => if i = j then 1 else 0⟩

/-- A second rational oracle bundle (different fuel), used to exhibit
oracle-independence of the 1x1 fast path. -/
def ctxQ2 : EigenCtx ℚ :=
  ⟨fun x => x, fun _ _ => (0, 1), 1, 5,
   fun M i => M.entry i i, fun _ _ => 0,
   fun _ i j => if i = j then 1 else 0⟩

/-- The diagonal test matrix `diag(3, 1)`. -/
def M0Q : MatrixType ℚ :=
  ⟨2, 2, fun i j => if i = j then (if i = 0 then 3 else 1) else 0⟩

/-- The 1x1 test matrix `[[5]]`. -/
def M5Q : MatrixType ℚ := ⟨1, 1, fun _ _ => 5⟩

/-- A non-square 1x2 matrix. -/
def MrectQ : MatrixType ℚ := ⟨1, 2, fun _ _ => 0⟩

/-- A 1x1 matrix that is not positive definite. -/
def BnegQ : MatrixType ℚ := ⟨1, 1, fun _ _ => -1⟩

/-- A 1x1 companion matrix for the generalized problem. -/
def AzeroQ : MatrixType ℚ := ⟨1, 1, fun _ _ => 0⟩

/-- An initial solver state whose eigenvector storage has distinct columns
(entry = column index), with nothing computed yet. -/
def s0Q : SelfAdjointEigenSolver ℚ := ⟨fun _ => 0, fun _ j => (j : ℚ), false⟩

/-- The solver state after one `compute(M0Q, true)` from `s0Q`. -/
def s1Q : SelfAdjointEigenSolver ℚ :=
  match SelfAdjointEigenSolver.compute ctxQ s0Q M0Q true with
  | .ok t => t
  | .error _ => s0Q

/-- The solver state after a second `compute(M0Q, true)` from `s1Q`. -/
def s2Q : SelfAdjointEigenSolver ℚ :=
  match SelfAdjointEigenSolver.compute ctxQ s1Q M0Q true with
  | .ok t => t
  | .error _ => s1Q

/-- A real oracle bundle whose sqrt collaborator is the genuine square root. -/
noncomputable def ctxR : EigenCtx ℝ :=
  ⟨Real.sqrt, fun _ _ => (1, 0), 0, 1,
   fun M i => M.entry i i, fun _ _ => 0,
   fun _ i j => if i = j then 1 else 0⟩

/-- The real 1x1 matrix `[[5]]`. -/
def A5R : MatrixType ℝ := ⟨1, 1, fun _ _ => 5⟩

/-- The real 1x1 identity, a positive definite `B`. -/
def B1R : MatrixType ℝ := ⟨1, 1, fun _ _ => 1⟩

/-- An all-zero initial real solver state. -/
def s0R : SelfAdjointEigenSolver ℝ := ⟨fun _ => 0, fun _ _ => 0, false⟩

/-- The Cholesky factor of `B1R`. -/
noncomputable def LR : ℕ → ℕ → ℝ := cholL Real.sqrt B1R.entry

/-- The solver state produced by the standard `compute` on the transformed
matrix `matCOf LR A5R` (the 1x1 fast path). -/
noncomputable def s1R : SelfAdjointEigenSolver ℝ :=
  ⟨Function.update s0R.m_eivalues 0 ((matCOf LR A5R).entry 0 0), fun _ _ => 1, true⟩

/-- The Wilkinson shift as worded by the claim being checked (and the spec
sentence it quotes): `td = (diag[end-1] - diag[end])/2`,
`e2 = subdiag[end-1]²`, `mu = diag[end] - e2/(td + sign(td)·sqrt(td²+e2))`
with `sign(0)` treated as `+1`. This is the spec-side definition used for
comparison against the source-side `tridiagonalQRShift`. -/
def wilkinsonShiftSpec (sqrt : R → R) (dPrev dEnd sd : R) : R :=
  let td := (dPrev - dEnd) / 2
  let e2 := sd ^ 2
  dEnd - e2 / (td + (if td < 0 then -1 else 1) * sqrt (td ^ 2 + e2))

/-- The Wilkinson shift as worded by the amended claim: identical to
`wilkinsonShiftSpec` except that `sign(0)` is treated as `-1`, matching the
source's `(td > 0 ? 1 : -1)`. -/
def wilkinsonShiftAmended (sqrt : R → R) (dPrev dEnd sd : R) : R :=
  let td := (dPrev - dEnd) / 2
  let e2 := sd ^ 2
  dEnd - e2 / (td + (if 0 < td then 1 else -1) * sqrt (td ^ 2 + e2))

/-- A solver object in the Uncomputed state (no `compute` call has happened)
whose `m_eigenvectorsOk` flag holds `true`: the C++ constructors never
initialize `m_eigenvectorsOk`, so before the first `compute` the flag is an
indeterminate boolean and may well read as `true`. -/
def uncomputedGarbageQ : SelfAdjointEigenSolver ℚ := ⟨fun _ => 0, fun _ _ => 0, true⟩

/-- The chosen minimum index lies at or after the window start. -/
theorem minIndexFrom_ge (v : ℕ → R) (i : ℕ) : ∀ m, i ≤ minIndexFrom v i m := by
  intro m
  induction m with
  | zero => simp [minIndexFrom]
  | succ m ih =>
    simp only [minIndexFrom]
    split
    · omega
    · exact ih

/-- The chosen minimum index lies within the window. -/
theorem minIndexFrom_le_add (v : ℕ → R) (i : ℕ) : ∀ m, minIndexFrom v i m ≤ i + m := by
  intro m
  induction m with
  | zero => simp [minIndexFrom]
  | succ m ih =>
    simp only [minIndexFrom]
    split
    · omega
    · omega

/-- The value at the chosen index is minimal over the window `[i, i+m]`. -/
theorem minIndexFrom_min (v : ℕ → R) (i : ℕ) :
    ∀ m j, i ≤ j → j ≤ i + m → v (minIndexFrom v i m) ≤ v j := by
  intro m
  induction m with
  | zero =>
    intro j h1 h2
    have : j = i := by omega
    subst this
    simp [minIndexFrom]
  | succ m ih =>
    intro j h1 h2
    simp only [minIndexFrom]
    split
    · rename_i hlt
      rcases Nat.lt_or_ge j (i + m + 1) with hj | hj
      · exact le_trans (le_of_lt hlt) (ih j h1 (by omega))
      · have : j = i + m + 1 := by omega
        subst this
        exact le_refl _
    · rename_i hnlt
      rcases Nat.lt_or_ge j (i + m + 1) with hj | hj
      · exact ih j h1 (by omega)
      · have : j = i + m + 1 := by omega
        subst this
        exact le_of_not_lt hnlt

/-- The selection sort returns its input composed with the returned
permutation (stated through the accumulator invariant). -/
theorem selSortGo_comp (n : ℕ) :
    ∀ fuel i (v0 : ℕ → R) (p : Equiv.Perm ℕ),
      (selSortGo n i fuel (fun j => v0 (p j)) p).1 =
        fun j => v0 ((selSortGo n i fuel (fun j => v0 (p j)) p).2 j) := by
  intro fuel
  induction fuel with
  | zero => intro i v0 p; rfl
  | succ m ih =>
    intro i v0 p
    simp only [selSortGo]
    split
    · exact ih (i+1) v0 p
    · have harg :
        (fun j => (fun j' => v0 (p j')) (Equiv.swap i (minIndexFrom (fun j' => v0 (p j')) i (n - 1 - i)) j)) =
          fun j => v0 ((p * Equiv.swap i (minIndexFrom (fun j' => v0 (p j')) i (n - 1 - i))) j) := by
        funext j
        rw [Equiv.Perm.mul_apply]
      rw [harg]
      exact ih (i+1) v0 _

/-- The final eigenvalue vector is the pre-sort vector composed with the
permutation returned by `selSort`. -/
theorem selSort_comp (v : ℕ → R) (n : ℕ) :
    (selSort v n).1 = fun j => v ((selSort v n).2 j) := by
  have h := selSortGo_comp n (n - 1) 0 v 1
  simpa using h

/-- Sortedness invariant of the selection-sort loop: if every already-placed
prefix element is at most every later element, the final vector is sorted on
`[0, n)`. -/
theorem selSortGo_sorted (n : ℕ) :
    ∀ fuel i (v : ℕ → R) (p : Equiv.Perm ℕ),
      i + fuel + 1 = n →
      (∀ a b, a < i → a < b → b < n → v a ≤ v b) →
      ∀ a b, a ≤ b → b < n →
        (selSortGo n i fuel v p).1 a ≤ (selSortGo n i fuel v p).1 b := by
  intro fuel
  induction fuel with
  | zero =>
    intro i v p hn pref a b hab hbn
    rcases Nat.eq_or_lt_of_le hab with h | h
    · subst h; exact le_refl _
    · exact pref a b (by omega) h hbn
  | succ m ih =>
    intro i v p hn pref a b hab hbn
    have hwin : n - 1 - i = m + 1 := by omega
    have hkge := minIndexFrom_ge v i (n - 1 - i)
    have hkle := minIndexFrom_le_add v i (n - 1 - i)
    have hkmin := minIndexFrom_min v i (n - 1 - i)
    simp only [selSortGo]
    split
    · rename_i hk
      refine ih (i+1) v p (by omega) ?_ a b hab hbn
      intro a' b' ha' hab' hb'
      rcases Nat.lt_or_ge a' i with h | h
      · exact pref a' b' h hab' hb'
      · have : a' = i := by omega
        subst this
        rw [← hk]
        exact hkmin b' (by omega) (by omega)
    · rename_i hk
      refine ih (i+1) _ _ (by omega) ?_ a b hab hbn
      intro a' b' ha' hab' hb'
      have hknei : minIndexFrom v i (n - 1 - i) ≠ i := hk
      rcases Nat.lt_or_ge a' i with h | h
      · have hsa : Equiv.swap i (minIndexFrom v i (n - 1 - i)) a' = a' :=
          Equiv.swap_apply_of_ne_of_ne (by omega) (by omega)
        simp only [hsa]
        rcases eq_or_ne b' i with hbi | hbi
        · subst hbi
          rw [Equiv.swap_apply_left]
          exact pref a' _ h (by omega) (by omega)
        · rcases eq_or_ne b' (minIndexFrom v i (n - 1 - i)) with hbk | hbk
          · subst hbk
            rw [Equiv.swap_apply_right]
            exact pref a' i h (by omega) (by omega)
          · rw [Equiv.swap_apply_of_ne_of_ne hbi hbk]
            exact pref a' b' h hab' hb'
      · have ha'i : a' = i := by omega
        simp only [ha'i, Equiv.swap_apply_left]
        have hsb : i ≤ Equiv.swap i (minIndexFrom v i (n - 1 - i)) b' ∧
            Equiv.swap i (minIndexFrom v i (n - 1 - i)) b' ≤ i + (n - 1 - i) := by
          rcases eq_or_ne b' i with hbi | hbi
          · subst hbi; rw [Equiv.swap_apply_left]; omega
          · rcases eq_or_ne b' (minIndexFrom v i (n - 1 - i)) with hbk | hbk
            · subst hbk; rw [Equiv.swap_apply_right]; omega
            · rw [Equiv.swap_apply_of_ne_of_ne hbi hbk]; omega
        exact hkmin _ hsb.1 hsb.2

/-- The eigenvalue vector returned by the selection sort is sorted ascending
on the index range `[0, n)`. -/
theorem selSort_sorted (v : ℕ → R) (n : ℕ) :
    ∀ a b, a ≤ b → b < n → (selSort v n).1 a ≤ (selSort v n).1 b := by
  intro a b hab hbn
  rcases Nat.eq_zero_or_pos n with h0 | h0
  · omega
  · exact selSortGo_sorted n (n - 1) 0 v 1 (by omega) (by omega) a b hab hbn

/-- One QR iteration at index `k` within `[start, e)` writes `diag` only at
`k`, `k+1` (within `[start, e]`), writes `sub` only at `k`, `k-1`, `k+1`
(within `[start, e-1]`), and leaves the accumulator untouched when no
accumulator was passed. -/
theorem qrIter_frame (givens : R → R → R × R) (hasQ : Bool) (start e k : ℕ)
    (st : QRData R) (hk1 : start ≤ k) (hk2 : k < e) :
    (∀ j, j < start ∨ e < j → (qrIter givens hasQ start e k st).diag j = st.diag j) ∧
    (∀ j, j < start ∨ e ≤ j → (qrIter givens hasQ start e k st).sub j = st.sub j) ∧
    (hasQ = false → (qrIter givens hasQ start e k st).q = st.q) := by
  refine ⟨?_, ?_, ?_⟩
  · intro j hj
    simp only [qrIter]
    rw [Function.update_noteq (by omega), Function.update_noteq (by omega)]
  · intro j hj
    simp only [qrIter]
    split
    · split
      · rw [Function.update_noteq (by omega), Function.update_noteq (by omega),
          Function.update_noteq (by omega)]
      · rw [Function.update_noteq (by omega), Function.update_noteq (by omega)]
    · split
      · rw [Function.update_noteq (by omega), Function.update_noteq (by omega)]
      · rw [Function.update_noteq (by omega)]
  · intro hq
    simp only [qrIter, hq, if_false]
    rfl

/-- Frame property of the QR sweep loop: iterating from `k` for `fuel` steps
with `k + fuel ≤ e` only changes `diag` inside `[start, e]` and `sub` inside
`[start, e-1]`, and never touches the accumulator when none was passed. -/
theorem qrLoop_frame (givens : R → R → R × R) (hasQ : Bool) (start e : ℕ) :
    ∀ fuel k (st : QRData R), start ≤ k → k + fuel ≤ e →
      (∀ j, j < start ∨ e < j →
        (qrLoop givens hasQ start e fuel k st).diag j = st.diag j) ∧
      (∀ j, j < start ∨ e ≤ j →
        (qrLoop givens hasQ start e fuel k st).sub j = st.sub j) ∧
      (hasQ = false → (qrLoop givens hasQ start e fuel k st).q = st.q) := by
  intro fuel
  induction fuel with
  | zero => intro k st _ _; exact ⟨fun _ _ => rfl, fun _ _ => rfl, fun _ => rfl⟩
  | succ m ih =>
    intro k st hk1 hk2
    have hkbound : k < e := by omega
    obtain ⟨hid, his, hiq⟩ := qrIter_frame givens hasQ start e k st hk1 hkbound
    obtain ⟨hld, hls, hlq⟩ := ih (k+1) (qrIter givens hasQ start e k st) (by omega) (by omega)
    simp only [qrLoop]
    refine ⟨?_, ?_, ?_⟩
    · intro j hj; rw [hld j hj, hid j hj]
    · intro j hj; rw [hls j hj, his j hj]
    · intro hq; rw [hlq hq, hiq hq]

/-- The numeric components of a QR iteration do not depend on the accumulator
component of the state. -/
theorem qrIter_nums_q_irrel (givens : R → R → R × R) (hasQ : Bool) (start e k : ℕ)
    (d sb : ℕ → R) (x z : R) (q q' : ℕ → ℕ → R) :
    (qrIter givens hasQ start e k ⟨d, sb, q, x, z⟩).nums =
      (qrIter givens hasQ start e k ⟨d, sb, q', x, z⟩).nums := rfl

/-- The numeric components produced by the QR sweep loop do not depend on the
accumulator component of the seed state. -/
theorem qrLoop_nums_q_irrel (givens : R → R → R × R) (hasQ : Bool) (start e : ℕ) :
    ∀ fuel k (d sb : ℕ → R) (x z : R) (q q' : ℕ → ℕ → R),
      (qrLoop givens hasQ start e fuel k ⟨d, sb, q, x, z⟩).nums =
        (qrLoop givens hasQ start e fuel k ⟨d, sb, q', x, z⟩).nums := by
  intro fuel
  induction fuel with
  | zero => intro k d sb x z q q'; rfl
  | succ m ih =>
    intro k d sb x z q q'
    simp only [qrLoop]
    exact ih (k+1)
      ((qrIter givens hasQ start e k ⟨d, sb, q, x, z⟩).diag)
      ((qrIter givens hasQ start e k ⟨d, sb, q, x, z⟩).sub)
      ((qrIter givens hasQ start e k ⟨d, sb, q, x, z⟩).x)
      ((qrIter givens hasQ start e k ⟨d, sb, q, x, z⟩).z)
      ((qrIter givens hasQ start e k ⟨d, sb, q, x, z⟩).q)
      ((qrIter givens hasQ start e k ⟨d, sb, q', x, z⟩).q)

/-- The diagonal, sub-diagonal and bulge scalars produced by one full QR
sweep do not depend on the accumulator argument. -/
theorem ei_tridiagonal_qr_step_nums_q_irrel (sqrt : R → R) (givens : R → R → R × R)
    (hasQ : Bool) (d sb : ℕ → R) (q q' : ℕ → ℕ → R) (start e n : ℕ) :
    (ei_tridiagonal_qr_step sqrt givens hasQ d sb q start e n).nums =
      (ei_tridiagonal_qr_step sqrt givens hasQ d sb q' start e n).nums := by
  simp only [ei_tridiagonal_qr_step]
  exact qrLoop_nums_q_irrel givens hasQ start e (e - start) start d sb _ _ q q'

/-- The diagonal and sub-diagonal produced by the deflation loop do not
depend on the accumulator component of the seed state. -/
theorem computeLoop_nums_q_irrel (ctx : EigenCtx R) (cev : Bool) (n : ℕ) :
    ∀ fuel start e (d sb : ℕ → R) (q q' : ℕ → ℕ → R),
      (computeLoop ctx cev n fuel start e ⟨d, sb, q⟩).diag =
          (computeLoop ctx cev n fuel start e ⟨d, sb, q'⟩).diag ∧
        (computeLoop ctx cev n fuel start e ⟨d, sb, q⟩).sub =
          (computeLoop ctx cev n fuel start e ⟨d, sb, q'⟩).sub := by
  intro fuel
  induction fuel with
  | zero => intro start e d sb q q'; exact ⟨rfl, rfl⟩
  | succ m ih =>
    intro start e d sb q q'
    simp only [computeLoop]
    split
    · exact ⟨rfl, rfl⟩
    · split
      · exact ⟨rfl, rfl⟩
      · have hnums := ei_tridiagonal_qr_step_nums_q_irrel ctx.sqrt ctx.givens cev
          d (deflatePass ctx.eps d sb start e) q q'
          (findStart (deflatePass ctx.eps d sb start e)
            (shrinkEnd (deflatePass ctx.eps d sb start e) e - 1))
          (shrinkEnd (deflatePass ctx.eps d sb start e) e) n
        have hd := congrArg Prod.fst hnums
        have hs := congrArg (fun t => t.2.1) hnums
        simp only [QRData.nums] at hd hs
        rw [hd, hs]
        exact ih _ _ _ _ _ _

/-- C2 counterexample: at `diag[end-1] = diag[end] = 0`, `subdiag[end-1] = 1`
we have `td = 0`, and the code's shift (`(td>0 ? 1 : -1)`, so sign(0) = -1)
evaluates to `1`, while the claim's formula with sign(0) treated as `+1`
evaluates to `-1`: the claim's description of the shift is false at this
input. -/
theorem C2_counterexample :
    tridiagonalQRShift Real.sqrt (0:ℝ) 0 1 = 1 ∧
      wilkinsonShiftSpec Real.sqrt (0:ℝ) 0 1 = -1 := by
  constructor
  · simp only [tridiagonalQRShift, ei_abs2]
    norm_num [Real.sqrt_one]
  · simp only [wilkinsonShiftSpec]
    norm_num [Real.sqrt_one]

/-- C2 (corrected): for every unreduced block `[start, end]` with
`start < end`, the QR step seeds its sweep with
`x = diag[start] - mu` where the Wilkinson shift is
`mu = diag[end] - e2/(td + sign(td)·sqrt(td² + e2))`,
`td = (diag[end-1] - diag[end])/2`, `e2 = subdiag[end-1]²`, and `sign(0)`
treated as `-1` (the code's `td>0 ? 1 : -1`), not `+1` as the claim stated. -/
theorem C2_shift_formula (sqrt : R → R) (givens : R → R → R × R) (hasQ : Bool)
    (diag subdiag : ℕ → R) (matrixQ : ℕ → ℕ → R) (start e n : ℕ)
    (h : start < e) :
    ei_tridiagonal_qr_step sqrt givens hasQ diag subdiag matrixQ start e n =
      qrLoop givens hasQ start e (e - start) start
        ⟨diag, subdiag, matrixQ,
         diag start - wilkinsonShiftAmended sqrt (diag (e-1)) (diag e) (subdiag (e-1)),
         subdiag start⟩ := by
  have key : ∀ a b c : R,
      tridiagonalQRShift sqrt a b c = wilkinsonShiftAmended sqrt a b c := by
    intro a b c
    simp only [tridiagonalQRShift, wilkinsonShiftAmended, ei_abs2]
    have h2 : (a - b) * (1/2 : R) = (a - b) / 2 := by ring
    rw [h2]
    have h3 : (a - b) / 2 * ((a - b) / 2) = ((a - b) / 2) ^ 2 := by ring
    have h4 : c * c = c ^ 2 := by ring
    rw [h3, h4]
  simp only [ei_tridiagonal_qr_step]
  rw [key]

/-- C2 witness: the corrected shift formula instantiated on a concrete
rational block with `start = 0 < 1 = end`. -/
theorem C2_witness :
    (0:ℕ) < 1 ∧
      ei_tridiagonal_qr_step (fun x : ℚ => x) (fun _ _ => (1, 0)) false
          (fun _ => 2) (fun _ => 1) (fun _ _ => 0) 0 1 2 =
        qrLoop (fun _ _ => ((1:ℚ), (0:ℚ))) false 0 1 1 0
          ⟨fun _ => 2, fun _ => 1, fun _ _ => 0,
           2 - wilkinsonShiftAmended (fun x : ℚ => x) 2 2 1, 1⟩ :=
  ⟨Nat.zero_lt_one,
   C2_shift_formula (fun x : ℚ => x) (fun _ _ => (1, 0)) false
     (fun _ => 2) (fun _ => 1) (fun _ _ => 0) 0 1 2 Nat.zero_lt_one⟩

/-- C4 (confirmed): during a deflation pass, a sub-diagonal entry in the
active range `[start, end)` becomes exactly zero precisely when
`|subdiag[i]| ≤ ε·(|diag[i]| + |diag[i+1]|)` (for a nonnegative machine
epsilon), and an entry above that threshold is left unchanged. -/
theorem C4_deflation_threshold (eps : R) (diag sub : ℕ → R) (start e i : ℕ)
    (heps : 0 ≤ eps) (h1 : start ≤ i) (h2 : i < e) :
    (deflatePass eps diag sub start e i = 0 ↔
        |sub i| ≤ eps * (|diag i| + |diag (i+1)|)) ∧
    (¬ |sub i| ≤ eps * (|diag i| + |diag (i+1)|) →
        deflatePass eps diag sub start e i = sub i) := by
  have habs : |(|sub i|)| = |sub i| := abs_abs _
  have habs2 : |(|diag i| + |diag (i+1)|)| = |diag i| + |diag (i+1)| :=
    abs_of_nonneg (add_nonneg (abs_nonneg _) (abs_nonneg _))
  by_cases ht : |sub i| ≤ eps * (|diag i| + |diag (i+1)|)
  · have hcond : start ≤ i ∧ i < e ∧
        |(|sub i|)| ≤ eps * |(|diag i| + |diag (i+1)|)| :=
      ⟨h1, h2, by rw [habs, habs2]; exact ht⟩
    refine ⟨?_, fun hn => absurd ht hn⟩
    simp only [deflatePass, if_pos hcond, eq_self_iff_true, true_iff]
    exact ht
  · have hcond : ¬(start ≤ i ∧ i < e ∧
        |(|sub i|)| ≤ eps * |(|diag i| + |diag (i+1)|)|) := by
      intro hcon
      apply ht
      have := hcon.2.2
      rwa [habs, habs2] at this
    simp only [deflatePass, if_neg hcond]
    refine ⟨iff_of_false ?_ ht, fun _ => trivial⟩
    intro h0
    apply ht
    rw [h0, abs_zero]
    exact mul_nonneg heps (add_nonneg (abs_nonneg _) (abs_nonneg _))

/-- C4 witness: the threshold test on a concrete rational instance
(`ε = 1`, |subdiag[0]| = 1 ≤ 1·(1+1), entry zeroed). -/
theorem C4_witness :
    (0:ℚ) ≤ 1 ∧ (0:ℕ) ≤ 0 ∧ (0:ℕ) < 1 ∧
      (deflatePass (1:ℚ) (fun _ => 1) (fun _ => 1) 0 1 0 = 0 ↔
        |(1:ℚ)| ≤ 1 * (|(1:ℚ)| + |(1:ℚ)|)) :=
  ⟨by norm_num, le_refl 0, Nat.zero_lt_one,
   (C4_deflation_threshold (1:ℚ) (fun _ => 1) (fun _ => 1) 0 1 0
     (by norm_num) (le_refl 0) Nat.zero_lt_one).1⟩

/-- C5 (confirmed): for a 1x1 input, `compute` returns the sole entry as the
single eigenvalue (written into slot 0 of the reused eigenvalue storage),
sets the eigenvector matrix to the all-ones 1x1 placeholder, and its result
is independent of the tridiagonalization/QR oracles - no tridiagonalization
or QR sweep is invoked. -/
theorem C5_one_by_one (ctx ctx' : EigenCtx R) (s : SelfAdjointEigenSolver R)
    (matrix : MatrixType R) (cev : Bool)
    (hr : matrix.rows = 1) (hc : matrix.cols = 1) :
    SelfAdjointEigenSolver.compute ctx s matrix cev =
      .ok ⟨Function.update s.m_eivalues 0 (matrix.entry 0 0), fun _ _ => 1, cev⟩ ∧
    SelfAdjointEigenSolver.compute ctx s matrix cev =
      SelfAdjointEigenSolver.compute ctx' s matrix cev := by
  constructor <;> simp [SelfAdjointEigenSolver.compute, hr, hc]

/-- C5 witness: `compute([[5]])` with two different oracle bundles yields
eigenvalue 5 and the all-ones 1x1 eigenvector matrix. -/
theorem C5_witness :
    M5Q.rows = 1 ∧ M5Q.cols = 1 ∧
      (SelfAdjointEigenSolver.compute ctxQ s0Q M5Q true =
        .ok ⟨Function.update s0Q.m_eivalues 0 (M5Q.entry 0 0), fun _ _ => 1, true⟩) ∧
      SelfAdjointEigenSolver.compute ctxQ s0Q M5Q true =
        SelfAdjointEigenSolver.compute ctxQ2 s0Q M5Q true :=
  ⟨rfl, rfl,
   (C5_one_by_one ctxQ ctxQ2 s0Q M5Q true rfl rfl).1,
   (C5_one_by_one ctxQ ctxQ2 s0Q M5Q true rfl rfl).2⟩

/-- C7 (confirmed): `compute` signals a contract violation and does not
produce a decomposition whenever the input matrix is not square, and the
generalized `compute` signals a contract violation whenever `A` is not
square or `B`'s dimensions differ from `A`'s. -/
theorem C7_square_contract :
    (∀ (ctx : EigenCtx R) (s : SelfAdjointEigenSolver R) (matrix : MatrixType R)
        (cev : Bool), matrix.cols ≠ matrix.rows →
        SelfAdjointEigenSolver.compute ctx s matrix cev = .error .contractViolation) ∧
    (∀ (ctx : EigenCtx R) (s : SelfAdjointEigenSolver R) (matA matB : MatrixType R)
        (cev : Bool),
        ¬(matA.cols = matA.rows ∧ matB.rows = matA.rows ∧ matB.cols = matB.rows) →
        SelfAdjointEigenSolver.computeGeneralized ctx s matA matB cev =
          .error .contractViolation) := by
  constructor
  · intro ctx s matrix cev h
    simp [SelfAdjointEigenSolver.compute, h]
  · intro ctx s matA matB cev h
    simp [SelfAdjointEigenSolver.computeGeneralized, h]

/-- C7 witness: a concrete non-square matrix and a concrete dimension
mismatch both produce the contract-violation error. -/
theorem C7_witness :
    MrectQ.cols ≠ MrectQ.rows ∧
      SelfAdjointEigenSolver.compute ctxQ s0Q MrectQ true = .error .contractViolation ∧
      ¬(M5Q.cols = M5Q.rows ∧ M0Q.rows = M5Q.rows ∧ M0Q.cols = M0Q.rows) ∧
      SelfAdjointEigenSolver.computeGeneralized ctxQ s0Q M5Q M0Q true =
        .error .contractViolation :=
  ⟨by decide,
   C7_square_contract.1 ctxQ s0Q MrectQ true (by decide),
   by decide,
   C7_square_contract.2 ctxQ s0Q M5Q M0Q true (by decide)⟩

/-- C8 (code_bug exhibit): a solver in the Uncomputed state - no `compute`
has ever run - whose uninitialized `m_eigenvectorsOk` flag happens to read
`true` (the constructors never initialize it): `eigenvectors()` silently
returns the stored matrix instead of signaling the contract violation that
the claim promises for every Uncomputed solver. -/
theorem C8_uninitialized_flag_exhibit :
    SelfAdjointEigenSolver.eigenvectors uncomputedGarbageQ =
      .ok uncomputedGarbageQ.m_eivec := rfl

/-- C10 (confirmed): a QR sweep over the unreduced block `[start, end]` with
`start < end` leaves every `diag` entry outside `[start, end]` and every
`subdiag` entry outside `[start, end-1]` unchanged, and when no accumulator
is passed (the null `matrixQ`, as the driver passes when eigenvectors are
not computed) the eigenvector storage is not modified at all. -/
theorem C10_frame (sqrt : R → R) (givens : R → R → R × R) (hasQ : Bool)
    (diag subdiag : ℕ → R) (matrixQ : ℕ → ℕ → R) (start e n : ℕ)
    (h : start < e) :
    (∀ j, j < start ∨ e < j →
      (ei_tridiagonal_qr_step sqrt givens hasQ diag subdiag matrixQ start e n).diag j
        = diag j) ∧
    (∀ j, j < start ∨ e ≤ j →
      (ei_tridiagonal_qr_step sqrt givens hasQ diag subdiag matrixQ start e n).sub j
        = subdiag j) ∧
    (hasQ = false →
      (ei_tridiagonal_qr_step sqrt givens hasQ diag subdiag matrixQ start e n).q
        = matrixQ) := by
  simp only [ei_tridiagonal_qr_step]
  exact qrLoop_frame givens hasQ start e (e - start) start _ (le_refl _) (by omega)

/-- C10 witness: on a concrete sweep over `[0, 1]` of a 2x2 block, `diag`
at index 2 and `subdiag` at index 1 are untouched, and with no accumulator
passed the eigenvector storage is returned unchanged. -/
theorem C10_witness :
    (0:ℕ) < 1 ∧
      (ei_tridiagonal_qr_step (fun x : ℚ => x) (fun _ _ => (1, 0)) false
        (fun _ => 3) (fun _ => 1) (fun _ _ => 7) 0 1 2).diag 2 = 3 ∧
      (ei_tridiagonal_qr_step (fun x : ℚ => x) (fun _ _ => (1, 0)) false
        (fun _ => 3) (fun _ => 1) (fun _ _ => 7) 0 1 2).sub 1 = 1 ∧
      (ei_tridiagonal_qr_step (fun x : ℚ => x) (fun _ _ => (1, 0)) false
        (fun _ => 3) (fun _ => 1) (fun _ _ => 7) 0 1 2).q = fun _ _ => 7 := by
  have h := C10_frame (fun x : ℚ => x) (fun _ _ => (1, 0)) false
    (fun _ => 3) (fun _ => 1) (fun _ _ => 7) 0 1 2 Nat.zero_lt_one
  exact ⟨Nat.zero_lt_one, h.1 2 (Or.inr (by omega)), h.2.1 1 (Or.inr (by omega)),
    h.2.2 rfl⟩

/-- C1 counterexample: `compute(M0Q, false)` - eigenvectors NOT computed -
still permutes the columns of the stored eigenvector matrix during the final
sort (the swap at source line 441 is unconditional): starting from a state
whose column 0 is all zeros and column 1 is all ones, entry (0,0) of the
storage afterwards is 1, not the original 0. This falsifies the claim's
"columns are swapped if and only if eigenvectors were computed". -/
theorem C1_counterexample :
    evecAt (SelfAdjointEigenSolver.compute ctxQ s0Q M0Q false) 0 0 ≠
      some (s0Q.m_eivec 0 0) := by
  norm_num [evecAt, SelfAdjointEigenSolver.compute, computeLoop, deflatePass, shrinkEnd,
    selSort, selSortGo, minIndexFrom, ctxQ, M0Q, s0Q, Equiv.swap_apply_left]

/-- C1 (corrected): after `compute` returns, the eigenvalue vector is the
selection-sort (over suffixes) of the pre-sort diagonal, it is sorted
ascending on `[0, n)`, it equals the pre-sort diagonal composed with the
sort's permutation, and the eigenvector columns are permuted by the very same
permutation - unconditionally, whether or not eigenvectors were computed
(so the value-to-vector pairing is preserved whenever they were). -/
theorem C1_sorted_pairing (ctx : EigenCtx R) (s : SelfAdjointEigenSolver R)
    (matrix : MatrixType R) (cev : Bool) (hsq : matrix.cols = matrix.rows) :
    SelfAdjointEigenSolver.compute ctx s matrix cev =
      .ok ⟨(selSort (preSortState ctx s matrix cev).1 matrix.cols).1,
           fun r c => (preSortState ctx s matrix cev).2 r
             ((selSort (preSortState ctx s matrix cev).1 matrix.cols).2 c),
           cev⟩ ∧
    (∀ i j, i ≤ j → j < matrix.cols →
      (selSort (preSortState ctx s matrix cev).1 matrix.cols).1 i ≤
        (selSort (preSortState ctx s matrix cev).1 matrix.cols).1 j) ∧
    ((selSort (preSortState ctx s matrix cev).1 matrix.cols).1 =
      fun j => (preSortState ctx s matrix cev).1
        ((selSort (preSortState ctx s matrix cev).1 matrix.cols).2 j)) := by
  refine ⟨?_, fun i j hij hj => selSort_sorted _ _ i j hij hj, selSort_comp _ _⟩
  by_cases h1 : matrix.cols = 1
  · have hr : matrix.rows = 1 := hsq ▸ h1
    simp [SelfAdjointEigenSolver.compute, preSortState, selSort, selSortGo, h1, hr]
  · simp only [SelfAdjointEigenSolver.compute, preSortState, if_pos hsq, if_neg h1]

/-- C1 witness: the corrected sort theorem instantiated on the concrete
diagonal matrix `diag(3,1)`; the sorted eigenvalue vector is ascending at
indices 0, 1. -/
theorem C1_witness :
    M0Q.cols = M0Q.rows ∧
      (selSort (preSortState ctxQ s0Q M0Q false).1 M0Q.cols).1 0 ≤
        (selSort (preSortState ctxQ s0Q M0Q false).1 M0Q.cols).1 1 :=
  ⟨rfl, (C1_sorted_pairing ctxQ s0Q M0Q false rfl).2.1 0 1 (by omega)
    (by norm_num [M0Q])⟩

/-- C9 counterexample: with `computeEigenvectors = false`, running
`compute(diag(3,1), false)` twice does not leave the stored eigenvector
matrix where the first run left it - the unconditional sort-swap permutes
the stale columns back, so entry (0,0) after the second call (0) differs
from its value after the first call (1). The claim's "identical
eigenvectors" for every flag `b` is false. -/
theorem C9_counterexample :
    evecAt ((SelfAdjointEigenSolver.compute ctxQ s0Q M0Q false).bind
        (fun t => SelfAdjointEigenSolver.compute ctxQ t M0Q false)) 0 0 ≠
      evecAt (SelfAdjointEigenSolver.compute ctxQ s0Q M0Q false) 0 0 := by
  norm_num [evecAt, Except.bind, SelfAdjointEigenSolver.compute, computeLoop,
    deflatePass, shrinkEnd, selSort, selSortGo, minIndexFrom, ctxQ, M0Q, s0Q,
    Equiv.swap_apply_left, Equiv.swap_apply_right]

/-- C9 (corrected): calling `compute(M, b)` twice in succession on the same
solver object yields identical eigenvalues, and identical eigenvectors when
`b = true` (when eigenvectors are actually computed). When `b = false` the
unused eigenvector storage may differ between the two calls. -/
theorem C9_idempotent (ctx : EigenCtx R) (s s₁ s₂ : SelfAdjointEigenSolver R)
    (matrix : MatrixType R) (cev : Bool)
    (h1 : SelfAdjointEigenSolver.compute ctx s matrix cev = .ok s₁)
    (h2 : SelfAdjointEigenSolver.compute ctx s₁ matrix cev = .ok s₂) :
    s₂.m_eivalues = s₁.m_eivalues ∧ (cev = true → s₂.m_eivec = s₁.m_eivec) := by
  by_cases hsq : matrix.cols = matrix.rows
  · by_cases h1c : matrix.cols = 1
    · simp only [SelfAdjointEigenSolver.compute, if_pos hsq, if_pos h1c,
        Except.ok.injEq] at h1 h2
      subst h1
      subst h2
      refine ⟨?_, fun _ => rfl⟩
      simp
    · simp only [SelfAdjointEigenSolver.compute, if_pos hsq, if_neg h1c,
        Except.ok.injEq] at h1 h2
      subst h1
      subst h2
      constructor
      · exact congrArg (fun dg => (selSort dg matrix.cols).1)
          ((computeLoop_nums_q_irrel ctx cev matrix.cols ctx.fuel 0
            (matrix.cols - 1) _ _ _ _).1)
      · intro hc
        subst hc
        simp
  · simp only [SelfAdjointEigenSolver.compute, if_neg hsq] at h1
    exact absurd h1 (by simp)

/-- C9 witness: two successive `compute(diag(3,1), true)` calls on the same
solver object produce identical eigenvalues and identical eigenvectors. -/
theorem C9_witness :
    (SelfAdjointEigenSolver.compute ctxQ s0Q M0Q true = .ok s1Q) ∧
    (SelfAdjointEigenSolver.compute ctxQ s1Q M0Q true = .ok s2Q) ∧
    s2Q.m_eivalues = s1Q.m_eivalues ∧ s2Q.m_eivec = s1Q.m_eivec := by
  have e1 : SelfAdjointEigenSolver.compute ctxQ s0Q M0Q true = .ok s1Q := by
    norm_num [s1Q, SelfAdjointEigenSolver.compute, computeLoop, deflatePass,
      shrinkEnd, selSort, selSortGo, minIndexFrom, ctxQ, M0Q, s0Q]
  have e2 : SelfAdjointEigenSolver.compute ctxQ s1Q M0Q true = .ok s2Q := by
    norm_num [s2Q, s1Q, SelfAdjointEigenSolver.compute, computeLoop, deflatePass,
      shrinkEnd, selSort, selSortGo, minIndexFrom, ctxQ, M0Q, s0Q]
  exact ⟨e1, e2, (C9_idempotent ctxQ s0Q s1Q s2Q M0Q true e1 e2).1,
    (C9_idempotent ctxQ s0Q s1Q s2Q M0Q true e1 e2).2 rfl⟩

/-- C3 (confirmed): whenever the (spec-modelled) Cholesky factorization of
`B` signals failure, the generalized `compute(A, B, cev)` propagates exactly
that failure to the caller instead of producing a decomposition. -/
theorem C3_llt_failure_propagation (ctx : EigenCtx R) (s : SelfAdjointEigenSolver R)
    (matA matB : MatrixType R) (cev : Bool) (err : EigenError)
    (hd : matA.cols = matA.rows ∧ matB.rows = matA.rows ∧ matB.cols = matB.rows)
    (he : lltCompute ctx.sqrt matB = .error err) :
    SelfAdjointEigenSolver.computeGeneralized ctx s matA matB cev = .error err := by
  simp only [SelfAdjointEigenSolver.computeGeneralized, if_pos hd, he]

/-- C3 witness: for the concrete non-positive-definite `B = [[-1]]`, the
modelled factorization fails with `notPositiveDefinite` and the generalized
`compute` returns exactly that error. -/
theorem C3_witness :
    (AzeroQ.cols = AzeroQ.rows ∧ BnegQ.rows = AzeroQ.rows ∧ BnegQ.cols = BnegQ.rows) ∧
    lltCompute ctxQ.sqrt BnegQ = .error .notPositiveDefinite ∧
    SelfAdjointEigenSolver.computeGeneralized ctxQ s0Q AzeroQ BnegQ false =
      .error .notPositiveDefinite := by
  have he : lltCompute ctxQ.sqrt BnegQ = .error .notPositiveDefinite := by
    norm_num [lltCompute, cholPivot, BnegQ, ctxQ, Nat.lt_one_iff]
  exact ⟨⟨rfl, rfl, rfl⟩, he,
    C3_llt_failure_propagation ctxQ s0Q AzeroQ BnegQ false .notPositiveDefinite
      ⟨rfl, rfl, rfl⟩ he⟩

/-- C6 (confirmed): in the generalized `compute(A, B, true)`, after the
standard decomposition of `C` produced eigenvectors `V_C`, the result's
eigenvectors are obtained by solving the triangular system `Lᵗ·V = V_C`
(back-substitution with the accumulated eigenvectors as right-hand side) and
renormalizing every column; consequently every column with nonzero solution
has unit Euclidean norm. -/
theorem C6_back_transform (ctx : EigenCtx ℝ) (s s₁ : SelfAdjointEigenSolver ℝ)
    (matA matB : MatrixType ℝ) (L : ℕ → ℕ → ℝ)
    (hs : ctx.sqrt = Real.sqrt)
    (hd : matA.cols = matA.rows ∧ matB.rows = matA.rows ∧ matB.cols = matB.rows)
    (hllt : lltCompute ctx.sqrt matB = .ok L)
    (hc : SelfAdjointEigenSolver.compute ctx s (matCOf L matA) true = .ok s₁) :
    SelfAdjointEigenSolver.computeGeneralized ctx s matA matB true =
      .ok ⟨s₁.m_eivalues,
           normalizeCols ctx.sqrt matA.rows
             (backSolve (fun i j => L j i) s₁.m_eivec matA.rows),
           s₁.m_eigenvectorsOk⟩ ∧
    (∀ j, (∑ k : Fin matA.rows,
        (backSolve (fun i j' => L j' i) s₁.m_eivec matA.rows k j) ^ 2) ≠ 0 →
      ∑ k : Fin matA.rows,
        (normalizeCols ctx.sqrt matA.rows
          (backSolve (fun i j' => L j' i) s₁.m_eivec matA.rows) k j) ^ 2 = 1) := by
  constructor
  · simp [SelfAdjointEigenSolver.computeGeneralized, if_pos hd, hllt, hc]
  · intro j hj
    rw [hs] at *
    simp only [normalizeCols]
    have hS : (0:ℝ) ≤ ∑ k : Fin matA.rows,
        (backSolve (fun i j' => L j' i) s₁.m_eivec matA.rows k j) ^ 2 :=
      Finset.sum_nonneg fun _ _ => sq_nonneg _
    simp only [div_pow]
    rw [← Finset.sum_div, Real.sq_sqrt hS]
    exact div_self hj

/-- C6 witness: the concrete generalized problem `A = [[5]]`, `B = [[1]]`
over the reals with the genuine square root: the factorization succeeds, the
standard `compute` on the transformed 1x1 matrix succeeds, and the
generalized result's eigenvectors are the renormalized triangular solve. -/
theorem C6_witness :
    ctxR.sqrt = Real.sqrt ∧
    (A5R.cols = A5R.rows ∧ B1R.rows = A5R.rows ∧ B1R.cols = B1R.rows) ∧
    lltCompute ctxR.sqrt B1R = .ok LR ∧
    SelfAdjointEigenSolver.compute ctxR s0R (matCOf LR A5R) true = .ok s1R ∧
    SelfAdjointEigenSolver.computeGeneralized ctxR s0R A5R B1R true =
      .ok ⟨s1R.m_eivalues,
           normalizeCols ctxR.sqrt A5R.rows
             (backSolve (fun i j => LR j i) s1R.m_eivec A5R.rows),
           s1R.m_eigenvectorsOk⟩ := by
  have hpos : ∀ j, j < B1R.rows → 0 < cholPivot ctxR.sqrt B1R.entry j := by
    intro j hj
    have hj0 : j = 0 := by
      simpa [B1R, Nat.lt_one_iff] using hj
    subst hj0
    simp [cholPivot, B1R]
  have hllt : lltCompute ctxR.sqrt B1R = .ok LR := by
    simp only [lltCompute, if_pos hpos]
    rfl
  have hc : SelfAdjointEigenSolver.compute ctxR s0R (matCOf LR A5R) true = .ok s1R := rfl
  exact ⟨rfl, ⟨rfl, rfl, rfl⟩, hllt, hc,
    (C6_back_transform ctxR s0R s1R A5R B1R LR rfl ⟨rfl, rfl, rfl⟩ hllt hc).1⟩
